import Mathlib

/-!
Verification of the mempool transaction disk-offload subsystem.

The repository ships the unit tests of the subsystem
(`src/test/mempooltxdb_tests.cpp`); the implementation of `CMempoolTxDB`
and `CAsyncMempoolTxDB` itself is not part of the excerpt, so every
definition below is modelled from the specification of the subsystem
(spec.md): a synchronous key-value transaction store with durable
aggregate counters and a checkpoint (xref) slot, an atomic batch commit
with per-key last-operation-wins resolution and first-persistence
callbacks, and an asynchronous write-coalescing layer in front of it.
-/

/-- Transaction identifier. Modelled from the spec: a fixed-size content
hash, represented abstractly as a natural number. -/
abbrev TxId := Nat

/-- Transaction record as submitted by a caller: identifier plus the byte
length of the serialized payload (the payload itself is only ever
observed through its identifier and size). Modelled from the spec:
"(identifier, serialized byte payload, byte length)". -/
structure TxRec where
  txid : TxId
  size : Nat
deriving DecidableEq, Repr

/-- A pending batch operation. Modelled from the spec: each batch entry is
either `Write(identifier, payload, onPersisted)` or
`Delete(identifier, length)`.  Callbacks are identified by a numeric tag
`cb`, so that callback invocations can be observed as data. -/
inductive BatchOp where
  | write (id : TxId) (size : Nat) (cb : Nat)
  | delete (id : TxId) (size : Nat)
deriving DecidableEq, Repr

/-- The identifier targeted by a batch operation. -/
def BatchOp.key : BatchOp → TxId
  | .write id _ _ => id
  | .delete id _ => id

/-- The per-identifier resolved final intended state of a batch. Modelled
from the spec: "a tagged variant PendingWrite(payload, callback) or
PendingDelete(length)". -/
inductive FinalOp where
  | pendingWrite (size : Nat) (cb : Nat)
  | pendingDelete (size : Nat)
deriving DecidableEq, Repr

/-- Resolved view of one batch operation. -/
def toFinal : BatchOp → FinalOp
  | .write _ s cb => .pendingWrite s cb
  | .delete _ s => .pendingDelete s

/-- First-match lookup in an association list keyed by `TxId`. -/
def lookupKey {β : Type} (id : TxId) : List (TxId × β) → Option β
  | [] => none
  | (k, s) :: rest => if k = id then some s else lookupKey id rest

/-- Remove the first pair with the given key from an association list. -/
def eraseKey {β : Type} (id : TxId) : List (TxId × β) → List (TxId × β)
  | [] => []
  | (k, s) :: rest => if k = id then rest else (k, s) :: eraseKey id rest

/-- Replace the binding of `id` (keeping its position) or append it. -/
def upsert {β : Type} (acc : List (TxId × β)) (id : TxId) (f : β) :
    List (TxId × β) :=
  match acc with
  | [] => [(id, f)]
  | (k, g) :: rest =>
      if k = id then (k, f) :: rest else (k, g) :: upsert rest id f

/-- Batch net-effect resolution. Modelled from the spec: "model each batch
as a mapping from identifier to a tagged variant ... built by folding the
ordered operation list with last-write-wins overwrite". -/
def resolveBatch (b : List BatchOp) : List (TxId × FinalOp) :=
  b.foldl (fun acc op => upsert acc op.key (toFinal op)) []

/-- The last queued operation for an identifier in submission order, as
the spec words it: "taking the last queued operation for that identifier
in submission order". -/
def lastOpFor (b : List BatchOp) (id : TxId) : Option BatchOp :=
  b.reverse.find? (fun op => op.key == id)

/-- Total byte size of the records in an association list. -/
def sumSizes (l : List (TxId × Nat)) : Nat := (l.map Prod.snd).sum

/-- The synchronous Transaction Store. Modelled from the spec: a
key-value store mapping transaction identifier to serialized bytes
(represented by their size), plus durably-recoverable aggregate counters
and an optional checkpoint (xref) slot. -/
structure MempoolTxDB where
  entries : List (TxId × Nat)
  diskUsage : Nat
  txCount : Nat
  xref : Option Nat
deriving DecidableEq, Repr

/-- A freshly created, empty store. -/
def emptyTxDB : MempoolTxDB := { entries := [], diskUsage := 0, txCount := 0, xref := none }

/-- Well-formedness of a store: the key set has no duplicates and both
aggregate counters are consistent with the store's actual contents, the
invariant the spec requires "immediately after any completed mutating
operation". -/
def Wf (db : MempoolTxDB) : Prop :=
  (db.entries.map Prod.fst).Nodup ∧
  db.diskUsage = sumSizes db.entries ∧
  db.txCount = db.entries.length

instance (db : MempoolTxDB) : Decidable (Wf db) := by
  unfold Wf; infer_instance

/-- Point lookup. Modelled from the spec: `Get(id) → payload or "not
found"` (the payload is observed through its byte size). -/
def getTransaction (db : MempoolTxDB) (id : TxId) : Option Nat :=
  lookupKey id db.entries

/-- Apply one resolved per-identifier effect. Modelled from the spec:
a resolved `Delete` removes the record if present (idempotent no-op if
absent) and never invokes a callback; a resolved `Write` consults the
pre-commit snapshot `pre` of the store contents — if the identifier was
already present no physical write happens and no callback is invoked,
otherwise the record is written and the callback of the last queued
`Write` is invoked.  Counters move by the net delta actually applied. -/
def applyFinal (pre : List (TxId × Nat))
    (st : MempoolTxDB × List (TxId × Nat)) (e : TxId × FinalOp) :
    MempoolTxDB × List (TxId × Nat) :=
  match e with
  | (id, .pendingDelete _) =>
      match lookupKey id st.1.entries with
      | some s =>
          ({ st.1 with
              entries := eraseKey id st.1.entries,
              diskUsage := st.1.diskUsage - s,
              txCount := st.1.txCount - 1 }, st.2)
      | none => st
  | (id, .pendingWrite s cb) =>
      if (lookupKey id pre).isSome then st
      else
        ({ st.1 with
            entries := st.1.entries ++ [(id, s)],
            diskUsage := st.1.diskUsage + s,
            txCount := st.1.txCount + 1 }, st.2 ++ [(id, cb)])

/-- Fold the resolved per-identifier effects over the store. -/
def commitLoop (pre : List (TxId × Nat))
    (st : MempoolTxDB × List (TxId × Nat)) (l : List (TxId × FinalOp)) :
    MempoolTxDB × List (TxId × Nat) :=
  l.foldl (applyFinal pre) st

/-- Atomic batch commit. Modelled from the spec: resolve the batch to its
per-identifier final intended states, apply each against the pre-commit
snapshot of the store, update the counters by the net delta actually
applied, and clear the checkpoint reference.  Returns the new store
together with the list of invoked `onPersisted` callbacks, in invocation
order. -/
def commit (db : MempoolTxDB) (b : List BatchOp) :
    MempoolTxDB × List (TxId × Nat) :=
  commitLoop db.entries ({ db with xref := none }, []) (resolveBatch b)

/-- Commit through the fallible I/O layer. Modelled from the spec:
"underlying I/O failure during commit reports failure and leaves the
store state and counters unchanged (no partial application); callers may
retry".  `ioOk` abstracts whether the storage engine's atomic batch apply
succeeds; the returned flag is the commit result. -/
def commitRes (ioOk : Bool) (db : MempoolTxDB) (b : List BatchOp) :
    Bool × MempoolTxDB × List (TxId × Nat) :=
  if ioOk then
    (true, commit db b)
  else
    (false, db, [])

/-- Single-call convenience write. Modelled from the spec:
`AddTransactions` commits a batch with one `Write` per transaction (the
synchronous entry point attaches no caller callback, tag 0). -/
def addTransactions (db : MempoolTxDB) (txs : List TxRec) :
    MempoolTxDB × Bool :=
  ((commit db (txs.map fun t => BatchOp.write t.txid t.size 0)).1, true)

/-- Single-call convenience delete. Modelled from the spec:
`RemoveTransactions` commits a batch with one `Delete(identifier,
length)` per entry. -/
def removeTransactions (db : MempoolTxDB) (txdata : List (TxId × Nat)) :
    MempoolTxDB × Bool :=
  ((commit db (txdata.map fun p => BatchOp.delete p.1 p.2)).1, true)

/-- Add a list of transactions one call at a time, as the unit tests do. -/
def addEach (db : MempoolTxDB) (txs : List TxRec) : MempoolTxDB :=
  txs.foldl (fun d t => (addTransactions d [t]).1) db

/-- Remove a list of transactions one call at a time. -/
def removeEach (db : MempoolTxDB) (txdata : List (TxId × Nat)) : MempoolTxDB :=
  txdata.foldl (fun d p => (removeTransactions d [p]).1) db

/-- Set the checkpoint reference. Modelled from the spec:
`SetCheckpoint(value) → success`. -/
def setXrefKey (db : MempoolTxDB) (v : Nat) : MempoolTxDB × Bool :=
  ({ db with xref := some v }, true)

/-- Read the checkpoint reference. Modelled from the spec:
`GetCheckpoint() → value or "absent"`. -/
def getXrefKey (db : MempoolTxDB) : Option Nat := db.xref

/-- Explicitly clear the checkpoint reference. Modelled from the spec:
`ClearCheckpoint() → success`. -/
def removeXrefKey (db : MempoolTxDB) : MempoolTxDB × Bool :=
  ({ db with xref := none }, true)

/-- Empty the store. Modelled from the spec: `Clear() → success`: removes
all records, resets both counters to zero, clears the checkpoint
reference. -/
def clearDatabase (db : MempoolTxDB) : MempoolTxDB × Bool :=
  (emptyTxDB, true)

/-! ### Association-list lemmas -/

theorem lookupKey_eq_none_iff {β : Type} (id : TxId) (l : List (TxId × β)) :
    lookupKey id l = none ↔ id ∉ l.map Prod.fst := by
  induction l with
  | nil => simp [lookupKey]
  | cons p rest ih =>
      obtain ⟨k, s⟩ := p
      by_cases hk : k = id <;> simp [lookupKey, hk, ih, Ne.symm]

theorem lookupKey_some_mem {β : Type} {id : TxId} {l : List (TxId × β)} {s : β}
    (h : lookupKey id l = some s) : (id, s) ∈ l := by
  induction l with
  | nil => simp [lookupKey] at h
  | cons p rest ih =>
      obtain ⟨k, v⟩ := p
      by_cases hk : k = id
      · simp [lookupKey, hk] at h
        simp [hk, h]
      · simp [lookupKey, hk] at h
        exact List.mem_cons_of_mem _ (ih h)

theorem mem_lookupKey_of_nodup {β : Type} {id : TxId} {l : List (TxId × β)} {s : β}
    (hn : (l.map Prod.fst).Nodup) (h : (id, s) ∈ l) :
    lookupKey id l = some s := by
  induction l with
  | nil => simp at h
  | cons p rest ih =>
      obtain ⟨k, v⟩ := p
      simp only [List.map_cons, List.nodup_cons] at hn
      rcases List.mem_cons.1 h with h1 | h1
      · obtain ⟨hk, hv⟩ := Prod.mk.injEq .. ▸ h1
        simp [lookupKey, Prod.ext_iff] at h1
        simp [lookupKey, h1.1, h1.2]
      · have hk : k ≠ id := by
          intro he
          exact hn.1 (he ▸ (List.mem_map.2 ⟨(id, s), h1, rfl⟩))
        simp [lookupKey, hk, ih hn.2 h1]

theorem lookupKey_append {β : Type} (id : TxId) (l1 l2 : List (TxId × β)) :
    lookupKey id (l1 ++ l2) =
      match lookupKey id l1 with
      | some s => some s
      | none => lookupKey id l2 := by
  induction l1 with
  | nil => simp [lookupKey]
  | cons p rest ih =>
      obtain ⟨k, s⟩ := p
      by_cases hk : k = id <;> simp [lookupKey, hk, ih]

theorem lookupKey_append_single_ne {β : Type} {j k : TxId} (h : j ≠ k)
    (l : List (TxId × β)) (s : β) :
    lookupKey j (l ++ [(k, s)]) = lookupKey j l := by
  rw [lookupKey_append]
  cases hl : lookupKey j l <;> simp [lookupKey, Ne.symm h]

theorem lookupKey_append_single_self {β : Type} {k : TxId} {l : List (TxId × β)}
    (h : lookupKey k l = none) (s : β) :
    lookupKey k (l ++ [(k, s)]) = some s := by
  rw [lookupKey_append, h]
  simp [lookupKey]

theorem lookupKey_eraseKey_ne {β : Type} {j k : TxId} (h : j ≠ k)
    (l : List (TxId × β)) :
    lookupKey j (eraseKey k l) = lookupKey j l := by
  have h' : k ≠ j := Ne.symm h
  induction l with
  | nil => simp [eraseKey]
  | cons p rest ih =>
      obtain ⟨k', s⟩ := p
      by_cases hk : k' = k
      · subst hk
        simp [eraseKey, lookupKey, h', ih]
      · by_cases hj : k' = j <;> simp [eraseKey, hk, lookupKey, hj, h, ih]

theorem eraseKey_sublist {β : Type} (k : TxId) (l : List (TxId × β)) :
    List.Sublist (eraseKey k l) l := by
  induction l with
  | nil => simp [eraseKey]
  | cons p rest ih =>
      obtain ⟨k', s⟩ := p
      by_cases hk : k' = k
      · simpa [eraseKey, hk] using List.sublist_cons_self (k', s) rest
      · simpa [eraseKey, hk] using ih.cons₂ (k', s)

theorem lookupKey_eraseKey_self {β : Type} {k : TxId} {l : List (TxId × β)}
    (hn : (l.map Prod.fst).Nodup) :
    lookupKey k (eraseKey k l) = none := by
  induction l with
  | nil => simp [eraseKey, lookupKey]
  | cons p rest ih =>
      obtain ⟨k', s⟩ := p
      simp only [List.map_cons, List.nodup_cons] at hn
      by_cases hk : k' = k
      · rw [eraseKey, if_pos hk]
        rw [lookupKey_eq_none_iff]
        exact hk ▸ hn.1
      · simp [eraseKey, hk, lookupKey, ih hn.2]

theorem sumSizes_eraseKey {k : TxId} {l : List (TxId × Nat)} {s : Nat}
    (h : lookupKey k l = some s) :
    sumSizes (eraseKey k l) + s = sumSizes l := by
  induction l with
  | nil => simp [lookupKey] at h
  | cons p rest ih =>
      obtain ⟨k', v⟩ := p
      by_cases hk : k' = k
      · simp [lookupKey, hk] at h
        simp [eraseKey, hk, sumSizes, h]
        omega
      · simp [lookupKey, hk] at h
        have := ih h
        simp [eraseKey, hk, sumSizes] at this ⊢
        omega

theorem length_eraseKey {β : Type} {k : TxId} {l : List (TxId × β)} {s : β}
    (h : lookupKey k l = some s) :
    (eraseKey k l).length + 1 = l.length := by
  induction l with
  | nil => simp [lookupKey] at h
  | cons p rest ih =>
      obtain ⟨k', v⟩ := p
      by_cases hk : k' = k
      · simp [eraseKey, hk]
      · simp [lookupKey, hk] at h
        simp [eraseKey, hk, ih h]

theorem sumSizes_append (l1 l2 : List (TxId × Nat)) :
    sumSizes (l1 ++ l2) = sumSizes l1 + sumSizes l2 := by
  simp [sumSizes]

theorem eq_nil_of_lookupKey_none {β : Type} {l : List (TxId × β)}
    (h : ∀ id, lookupKey id l = none) : l = [] := by
  cases l with
  | nil => rfl
  | cons p rest =>
      obtain ⟨k, s⟩ := p
      have := h k
      simp [lookupKey] at this

theorem assoc_perm_of_lookupKey_eq {β : Type} {l1 l2 : List (TxId × β)}
    (h1 : (l1.map Prod.fst).Nodup) (h2 : (l2.map Prod.fst).Nodup)
    (h : ∀ id, lookupKey id l1 = lookupKey id l2) : l1.Perm l2 := by
  rw [List.perm_ext_iff_of_nodup h1.of_map h2.of_map]
  rintro ⟨id, s⟩
  constructor
  · intro hm
    exact lookupKey_some_mem ((h id) ▸ mem_lookupKey_of_nodup h1 hm)
  · intro hm
    exact lookupKey_some_mem ((h id) ▸ mem_lookupKey_of_nodup h2 hm)

/-! ### Batch resolution lemmas -/

theorem lastOpFor_nil (id : TxId) : lastOpFor [] id = none := rfl

theorem lastOpFor_snoc (b : List BatchOp) (op : BatchOp) (id : TxId) :
    lastOpFor (b ++ [op]) id =
      if op.key = id then some op else lastOpFor b id := by
  unfold lastOpFor
  rw [List.reverse_append]
  by_cases h : op.key = id
  · rw [if_pos h]
    simp [List.find?, h]
  · rw [if_neg h]
    simp only [List.reverse_cons, List.reverse_nil, List.nil_append,
      List.singleton_append, List.find?]
    have : (op.key == id) = false := by simp [h]
    simp [this]

theorem resolveBatch_snoc (b : List BatchOp) (op : BatchOp) :
    resolveBatch (b ++ [op]) = upsert (resolveBatch b) op.key (toFinal op) := by
  unfold resolveBatch
  rw [List.foldl_append]
  rfl

theorem lookupKey_upsert_self {β : Type} (acc : List (TxId × β)) (id : TxId)
    (f : β) : lookupKey id (upsert acc id f) = some f := by
  induction acc with
  | nil => simp [upsert, lookupKey]
  | cons p rest ih =>
      obtain ⟨k, g⟩ := p
      by_cases hk : k = id <;> simp [upsert, hk, lookupKey, ih]

theorem lookupKey_upsert_ne {β : Type} {j id : TxId} (h : j ≠ id)
    (acc : List (TxId × β)) (f : β) :
    lookupKey j (upsert acc id f) = lookupKey j acc := by
  induction acc with
  | nil => simp [upsert, lookupKey, Ne.symm h]
  | cons p rest ih =>
      obtain ⟨k, g⟩ := p
      by_cases hk : k = id
      · subst hk
        simp [upsert, lookupKey, Ne.symm h]
      · by_cases hj : k = j
        · subst hj
          simp [upsert, hk, lookupKey]
        · simp [upsert, hk, lookupKey, hj, ih]

theorem mem_upsert {β : Type} {q : TxId × β} {acc : List (TxId × β)}
    {id : TxId} {f : β} (h : q ∈ upsert acc id f) :
    q = (id, f) ∨ q ∈ acc := by
  induction acc with
  | nil => simpa [upsert] using h
  | cons p rest ih =>
      obtain ⟨k, g⟩ := p
      by_cases hk : k = id
      · simp only [upsert, if_pos hk, List.mem_cons] at h
        rcases h with h1 | h1
        · left; rw [h1, hk]
        · right; exact List.mem_cons_of_mem _ h1
      · simp only [upsert, if_neg hk, List.mem_cons] at h
        rcases h with h1 | h1
        · right; exact List.mem_cons.2 (Or.inl h1)
        · rcases ih h1 with h2 | h2
          · left; exact h2
          · right; exact List.mem_cons_of_mem _ h2

theorem keys_upsert_nodup {β : Type} {acc : List (TxId × β)}
    (hn : (acc.map Prod.fst).Nodup) (id : TxId) (f : β) :
    ((upsert acc id f).map Prod.fst).Nodup := by
  induction acc with
  | nil => simp [upsert]
  | cons p rest ih =>
      obtain ⟨k, g⟩ := p
      simp only [List.map_cons, List.nodup_cons] at hn
      by_cases hk : k = id
      · simp only [upsert, if_pos hk, List.map_cons, List.nodup_cons]
        exact ⟨hn.1, hn.2⟩
      · simp only [upsert, if_neg hk, List.map_cons, List.nodup_cons]
        refine ⟨?_, ih hn.2⟩
        intro hmem
        rcases List.mem_map.1 hmem with ⟨q, hq, hfst⟩
        rcases mem_upsert hq with h1 | h1
        · rw [h1] at hfst
          exact hk hfst.symm
        · exact hn.1 (List.mem_map.2 ⟨q, h1, hfst⟩)

theorem resolveBatch_keys_nodup (b : List BatchOp) :
    ((resolveBatch b).map Prod.fst).Nodup := by
  induction b using List.reverseRecOn with
  | nil => simp [resolveBatch]
  | append_singleton b op ih =>
      rw [resolveBatch_snoc]
      exact keys_upsert_nodup ih op.key (toFinal op)

theorem resolveBatch_lookup (b : List BatchOp) (id : TxId) :
    lookupKey id (resolveBatch b) = (lastOpFor b id).map toFinal := by
  induction b using List.reverseRecOn with
  | nil => simp [resolveBatch, lastOpFor, lookupKey]
  | append_singleton b op ih =>
      rw [resolveBatch_snoc, lastOpFor_snoc]
      by_cases h : op.key = id
      · rw [if_pos h, h, lookupKey_upsert_self]
        simp
      · rw [if_neg h, lookupKey_upsert_ne (Ne.symm h), ih]

theorem mem_resolveBatch {b : List BatchOp} {p : TxId × FinalOp}
    (h : p ∈ resolveBatch b) : ∃ op ∈ b, op.key = p.1 ∧ toFinal op = p.2 := by
  induction b using List.reverseRecOn with
  | nil => simp [resolveBatch] at h
  | append_singleton b op ih =>
      rw [resolveBatch_snoc] at h
      rcases mem_upsert h with h1 | h1
      · exact ⟨op, by simp, by simp [h1]⟩
      · rcases ih h1 with ⟨op', hmem, hk, hf⟩
        exact ⟨op', by simp [hmem], hk, hf⟩

theorem lastOpFor_mem {b : List BatchOp} {id : TxId} {op : BatchOp}
    (h : lastOpFor b id = some op) : op ∈ b ∧ op.key = id := by
  unfold lastOpFor at h
  refine ⟨List.mem_reverse.1 (List.mem_of_find?_eq_some h), ?_⟩
  have := List.find?_some h
  simpa using this

theorem lastOpFor_eq_none_iff {b : List BatchOp} {id : TxId} :
    lastOpFor b id = none ↔ ∀ op ∈ b, op.key ≠ id := by
  unfold lastOpFor
  rw [List.find?_eq_none]
  constructor
  · intro h op hmem
    have := h op (List.mem_reverse.2 hmem)
    simpa using this
  · intro h op hmem
    simpa using h op (List.mem_reverse.1 hmem)

/-! ### Characterization of the commit fold -/

/-- The callbacks a commit over pre-state `pre` invokes for a resolved
effect list: one per resolved `pendingWrite` whose identifier was not
present before the commit began. -/
def cbsOf (pre : List (TxId × Nat)) (l : List (TxId × FinalOp)) :
    List (TxId × Nat) :=
  l.filterMap fun p =>
    match p.2 with
    | .pendingWrite _ cb =>
        if (lookupKey p.1 pre).isSome then none else some (p.1, cb)
    | .pendingDelete _ => none

theorem cbsOf_cons (pre : List (TxId × Nat)) (k : TxId) (g : FinalOp)
    (rest : List (TxId × FinalOp)) :
    cbsOf pre ((k, g) :: rest) =
      (match g with
       | .pendingWrite _ cb =>
           if (lookupKey k pre).isSome then [] else [(k, cb)]
       | .pendingDelete _ => []) ++ cbsOf pre rest := by
  cases g with
  | pendingWrite s cb =>
      by_cases h : (lookupKey k pre).isSome <;>
        simp [cbsOf, List.filterMap_cons, h]
  | pendingDelete s => simp [cbsOf, List.filterMap_cons]

/-- Effect of a single resolved per-identifier operation on the store. -/
theorem applyFinal_step {pre : List (TxId × Nat)} {db : MempoolTxDB}
    (cbs : List (TxId × Nat)) (k : TxId) (g : FinalOp)
    (hwf : Wf db) (hag : lookupKey k db.entries = lookupKey k pre) :
    Wf (applyFinal pre (db, cbs) (k, g)).1 ∧
    (applyFinal pre (db, cbs) (k, g)).1.xref = db.xref ∧
    (applyFinal pre (db, cbs) (k, g)).2 =
      cbs ++ (match g with
              | .pendingWrite _ cb =>
                  if (lookupKey k pre).isSome then [] else [(k, cb)]
              | .pendingDelete _ => []) ∧
    (∀ j, j ≠ k →
      lookupKey j (applyFinal pre (db, cbs) (k, g)).1.entries =
        lookupKey j db.entries) ∧
    lookupKey k (applyFinal pre (db, cbs) (k, g)).1.entries =
      (match g with
       | .pendingWrite s _ =>
           match lookupKey k pre with
           | some s0 => some s0
           | none => some s
       | .pendingDelete _ => none) := by
  obtain ⟨hnd, husage, hcount⟩ := hwf
  cases g with
  | pendingDelete sd =>
      cases hlk : lookupKey k db.entries with
      | none =>
          have heq : applyFinal pre (db, cbs) (k, FinalOp.pendingDelete sd)
              = (db, cbs) := by
            simp [applyFinal, hlk]
          rw [heq]
          exact ⟨⟨hnd, husage, hcount⟩, rfl, by simp, fun j _ => rfl, hlk⟩
      | some s =>
          have heq : applyFinal pre (db, cbs) (k, FinalOp.pendingDelete sd)
              = ({ db with
                    entries := eraseKey k db.entries,
                    diskUsage := db.diskUsage - s,
                    txCount := db.txCount - 1 }, cbs) := by
            simp [applyFinal, hlk]
          rw [heq]
          have hsum := sumSizes_eraseKey hlk
          have hlen := length_eraseKey hlk
          refine ⟨⟨?_, ?_, ?_⟩, rfl, by simp, ?_, ?_⟩
          · exact ((eraseKey_sublist k db.entries).map Prod.fst).nodup hnd
          · simp only
            omega
          · simp only
            omega
          · intro j hj
            exact lookupKey_eraseKey_ne hj db.entries
          · simpa using lookupKey_eraseKey_self hnd
  | pendingWrite s cb =>
      cases hpre : lookupKey k pre with
      | some s0 =>
          have heq : applyFinal pre (db, cbs) (k, FinalOp.pendingWrite s cb)
              = (db, cbs) := by
            simp [applyFinal, hpre]
          rw [heq]
          refine ⟨⟨hnd, husage, hcount⟩, rfl, by simp [hpre], fun j _ => rfl, ?_⟩
          rw [hag, hpre]
      | none =>
          have hlk : lookupKey k db.entries = none := by rw [hag, hpre]
          have hnotin : k ∉ db.entries.map Prod.fst :=
            (lookupKey_eq_none_iff k db.entries).1 hlk
          have heq : applyFinal pre (db, cbs) (k, FinalOp.pendingWrite s cb)
              = ({ db with
                    entries := db.entries ++ [(k, s)],
                    diskUsage := db.diskUsage + s,
                    txCount := db.txCount + 1 }, cbs ++ [(k, cb)]) := by
            simp [applyFinal, hpre]
          rw [heq]
          refine ⟨⟨?_, ?_, ?_⟩, rfl, by simp [hpre], ?_, ?_⟩
          · simp [List.nodup_append, hnd, hnotin]
          · simp [sumSizes, husage]
          · simp [hcount]
          · intro j hj
            exact lookupKey_append_single_ne hj db.entries s
          · simp only
            rw [lookupKey_append_single_self hlk s]

/-- Master characterization of the commit fold: starting from a
well-formed store whose contents agree with the pre-commit snapshot on
every identifier the resolved effect list touches, the fold preserves
well-formedness, leaves the checkpoint slot alone, appends exactly the
first-persistence callbacks, and maps every identifier to the value its
resolved final operation dictates. -/
theorem commitLoop_master (pre : List (TxId × Nat)) :
    ∀ (l : List (TxId × FinalOp)) (db : MempoolTxDB)
      (cbs : List (TxId × Nat)),
      Wf db → (l.map Prod.fst).Nodup →
      (∀ p ∈ l, lookupKey p.1 db.entries = lookupKey p.1 pre) →
      Wf (commitLoop pre (db, cbs) l).1 ∧
      (commitLoop pre (db, cbs) l).2 = cbs ++ cbsOf pre l ∧
      (commitLoop pre (db, cbs) l).1.xref = db.xref ∧
      ∀ id, lookupKey id (commitLoop pre (db, cbs) l).1.entries =
        match lookupKey id l with
        | some (FinalOp.pendingWrite s _) =>
            match lookupKey id pre with
            | some s0 => some s0
            | none => some s
        | some (FinalOp.pendingDelete _) => none
        | none => lookupKey id db.entries := by
  intro l
  induction l with
  | nil =>
      intro db cbs hwf _ _
      exact ⟨hwf, by simp [commitLoop, cbsOf], rfl,
        fun id => by simp [commitLoop, lookupKey]⟩
  | cons p rest ih =>
      rintro db cbs hwf hnl hagree
      obtain ⟨k, g⟩ := p
      simp only [List.map_cons, List.nodup_cons] at hnl
      have hknotin : k ∉ rest.map Prod.fst := hnl.1
      have hagk : lookupKey k db.entries = lookupKey k pre :=
        hagree (k, g) (List.mem_cons_self _ _)
      obtain ⟨hwf', hxref', hcbs', hothers, hself⟩ :=
        @applyFinal_step pre db cbs k g hwf hagk
      set st' := applyFinal pre (db, cbs) (k, g) with hst'
      have hstep : commitLoop pre (db, cbs) ((k, g) :: rest)
          = commitLoop pre st' rest := rfl
      have hagree' : ∀ p ∈ rest, lookupKey p.1 st'.1.entries = lookupKey p.1 pre := by
        intro q hq
        have hqk : q.1 ≠ k := by
          intro hcontra
          exact hknotin (hcontra ▸ List.mem_map.2 ⟨q, hq, rfl⟩)
        rw [hothers q.1 hqk]
        exact hagree q (List.mem_cons_of_mem _ hq)
      have hpair : st' = (st'.1, st'.2) := rfl
      obtain ⟨ihWf, ihcbs, ihxref, ihlook⟩ :=
        ih st'.1 st'.2 hwf' hnl.2 hagree'
      rw [hstep, hpair]
      refine ⟨ihWf, ?_, ?_, ?_⟩
      · rw [ihcbs, hcbs', cbsOf_cons]
        simp
      · rw [ihxref, hxref']
      · intro id
        rw [ihlook id]
        by_cases hid : id = k
        · subst hid
          have h1 : lookupKey id ((id, g) :: rest) = some g := by
            simp [lookupKey]
          have h2 : lookupKey id rest = none :=
            (lookupKey_eq_none_iff id rest).2 hknotin
          rw [h1, h2, hself]
          cases g <;> simp
        · have hk : k ≠ id := fun h => hid h.symm
          have h1 : lookupKey id ((k, g) :: rest) = lookupKey id rest := by
            simp [lookupKey, hk]
          rw [h1]
          cases hlr : lookupKey id rest with
          | some f => cases f <;> simp
          | none =>
              simp only
              exact hothers id hid

theorem commitLoop_xref_eq (pre : List (TxId × Nat))
    (l : List (TxId × FinalOp)) :
    ∀ st : MempoolTxDB × List (TxId × Nat),
      (commitLoop pre st l).1.xref = st.1.xref := by
  induction l with
  | nil => intro st; rfl
  | cons e rest ih =>
      intro st
      have hstep : commitLoop pre st (e :: rest)
          = commitLoop pre (applyFinal pre st e) rest := rfl
      rw [hstep, ih]
      obtain ⟨id, f⟩ := e
      cases f with
      | pendingDelete sd =>
          cases h : lookupKey id st.1.entries <;> simp [applyFinal, h]
      | pendingWrite s cb =>
          by_cases h : (lookupKey id pre).isSome <;> simp [applyFinal, h]

/-- A commit always clears the checkpoint reference. -/
theorem commit_xref (db : MempoolTxDB) (b : List BatchOp) :
    (commit db b).1.xref = none := by
  unfold commit
  rw [commitLoop_xref_eq]

/-- Committing a batch preserves well-formedness of the store: the key
set stays duplicate-free and both counters stay consistent with the
actual contents, i.e. they moved by exactly the net delta applied. -/
theorem commit_wf {db : MempoolTxDB} (hwf : Wf db) (b : List BatchOp) :
    Wf (commit db b).1 := by
  have hwf0 : Wf { db with xref := none } := ⟨hwf.1, hwf.2.1, hwf.2.2⟩
  exact (commitLoop_master db.entries (resolveBatch b) { db with xref := none }
    [] hwf0 (resolveBatch_keys_nodup b) (fun _ _ => rfl)).1

/-- The callbacks a commit invokes are exactly the first-persistence
callbacks of the resolved batch. -/
theorem commit_cbs {db : MempoolTxDB} (hwf : Wf db) (b : List BatchOp) :
    (commit db b).2 = cbsOf db.entries (resolveBatch b) := by
  have hwf0 : Wf { db with xref := none } := ⟨hwf.1, hwf.2.1, hwf.2.2⟩
  have h := (commitLoop_master db.entries (resolveBatch b)
    { db with xref := none } [] hwf0 (resolveBatch_keys_nodup b)
    (fun _ _ => rfl)).2.1
  simpa using h

/-- Per-identifier contents after a commit: the last queued operation for
the identifier decides, a last `Write` keeps the previously stored value
if the identifier was already present and stores the written value
otherwise, a last `Delete` removes it, and identifiers the batch does not
touch are unchanged. -/
theorem commit_lookup {db : MempoolTxDB} (hwf : Wf db) (b : List BatchOp)
    (id : TxId) :
    lookupKey id (commit db b).1.entries =
      match lastOpFor b id with
      | some (BatchOp.write _ s _) =>
          match lookupKey id db.entries with
          | some s0 => some s0
          | none => some s
      | some (BatchOp.delete _ _) => none
      | none => lookupKey id db.entries := by
  have hwf0 : Wf { db with xref := none } := ⟨hwf.1, hwf.2.1, hwf.2.2⟩
  have h := (commitLoop_master db.entries (resolveBatch b)
    { db with xref := none } [] hwf0 (resolveBatch_keys_nodup b)
    (fun _ _ => rfl)).2.2.2 id
  unfold commit
  rw [h, resolveBatch_lookup]
  cases hl : lastOpFor b id with
  | none => rfl
  | some op => cases op <;> rfl

theorem mem_cbsOf_keys {pre : List (TxId × Nat)} {l : List (TxId × FinalOp)}
    {p : TxId × Nat} (h : p ∈ cbsOf pre l) : p.1 ∈ l.map Prod.fst := by
  rcases List.mem_filterMap.1 h with ⟨q, hq, heq⟩
  rcases q with ⟨k, f⟩
  cases f with
  | pendingWrite s cb =>
      by_cases hs : (lookupKey k pre).isSome
      · simp [hs] at heq
      · simp [hs] at heq
        exact List.mem_map.2 ⟨(k, .pendingWrite s cb), hq, by rw [← heq]⟩
  | pendingDelete sd => simp at heq

theorem cbsOf_filter_notin {pre : List (TxId × Nat)}
    {l : List (TxId × FinalOp)} {id : TxId}
    (h : id ∉ l.map Prod.fst) :
    (cbsOf pre l).filter (fun p => p.1 == id) = [] := by
  rw [List.filter_eq_nil]
  intro p hp
  simp only [beq_iff_eq]
  intro hcontra
  exact h (hcontra ▸ mem_cbsOf_keys hp)

/-- The callbacks a commit invokes for one identifier: exactly one — the
one attached to the resolved final `pendingWrite` — when the identifier
was absent before the commit, and none otherwise. -/
theorem cbsOf_filter (pre : List (TxId × Nat)) {l : List (TxId × FinalOp)}
    (hn : (l.map Prod.fst).Nodup) (id : TxId) :
    (cbsOf pre l).filter (fun p => p.1 == id) =
      match lookupKey id l with
      | some (FinalOp.pendingWrite _ cb) =>
          if (lookupKey id pre).isSome then [] else [(id, cb)]
      | some (FinalOp.pendingDelete _) => []
      | none => [] := by
  induction l with
  | nil => simp [cbsOf, lookupKey]
  | cons p rest ih =>
      obtain ⟨k, g⟩ := p
      simp only [List.map_cons, List.nodup_cons] at hn
      rw [cbsOf_cons]
      rw [List.filter_append]
      by_cases hid : k = id
      · subst hid
        have h1 : lookupKey k ((k, g) :: rest) = some g := by simp [lookupKey]
        rw [h1, cbsOf_filter_notin hn.1]
        cases g with
        | pendingWrite s cb =>
            by_cases hs : (lookupKey k pre).isSome <;> simp [hs]
        | pendingDelete sd => simp
      · have hk : k ≠ id := hid
        have h1 : lookupKey id ((k, g) :: rest) = lookupKey id rest := by
          simp [lookupKey, hk]
        rw [h1, ih hn.2]
        cases g with
        | pendingWrite s cb =>
            by_cases hs : (lookupKey k pre).isSome <;> simp [hs, hk]
        | pendingDelete sd => simp

/-! ### The asynchronous Offload Manager -/

/-- A queued request to the Offload Manager. Modelled from the spec:
`Add(entries)` enqueues transaction wrappers for eventual persistence
(each carrying its persisted-notification callback), `Remove(entries)`
enqueues (identifier, length) deletions. -/
inductive TxOp where
  | add (id : TxId) (size : Nat) (cb : Nat)
  | remove (id : TxId) (size : Nat)
deriving DecidableEq, Repr

/-- The identifier targeted by a queued request. -/
def TxOp.keyOf : TxOp → TxId
  | .add id _ _ => id
  | .remove id _ => id

/-- The batch operation the worker builds from a queued request. -/
def TxOp.toBatchOp : TxOp → BatchOp
  | .add id s cb => .write id s cb
  | .remove id s => .delete id s

/-- The Offload Manager. Modelled from the spec: owns one Transaction
Store and counts the physical batch commits the worker executed
(`GetWriteCount()`). -/
structure AsyncMempoolTxDB where
  db : MempoolTxDB
  writeCount : Nat
deriving DecidableEq, Repr

/-- A freshly opened Offload Manager over a given store. -/
def asyncOpen (db : MempoolTxDB) : AsyncMempoolTxDB :=
  { db := db, writeCount := 0 }

/-- One drain cycle of the background worker. Modelled from the spec:
"the worker drains all currently queued Add/Remove requests into a
single Batch per drain cycle (rather than committing per request), then
commits"; a cycle that found nothing queued commits nothing. -/
def drainCycle (a : AsyncMempoolTxDB) (chunk : List TxOp) :
    AsyncMempoolTxDB :=
  if chunk = [] then a
  else
    { db := (commit a.db (chunk.map TxOp.toBatchOp)).1,
      writeCount := a.writeCount + 1 }

/-- Run the worker over a whole schedule of drain cycles. -/
def runChunks (a : AsyncMempoolTxDB) (chunks : List (List TxOp)) :
    AsyncMempoolTxDB :=
  chunks.foldl drainCycle a

/-- A schedule under which `Sync()` has returned: the drain cycles
partition the requests enqueued before the `Sync()` call, in global FIFO
order, into consecutive non-empty batches. -/
def ValidSchedule (ops : List TxOp) (chunks : List (List TxOp)) : Prop :=
  chunks.join = ops ∧ [] ∉ chunks

/-- The synchronous reference semantics the Sync barrier promises:
applying the same operations in submission order directly to the
synchronous Transaction Store, one commit per operation. -/
def applySyncOps (db : MempoolTxDB) (ops : List TxOp) : MempoolTxDB :=
  ops.foldl (fun d op => (commit d [op.toBatchOp]).1) db

/-- The last queued request for an identifier in submission order. -/
def lastTxOpFor (ops : List TxOp) (id : TxId) : Option TxOp :=
  ops.reverse.find? (fun op => op.keyOf == id)

/-- Coherence of queued adds with the store: an `add` for an identifier
already stored carries the stored payload size. This reflects the data
model: the identifier is a content hash, so equal identifiers name equal
payloads. -/
def storeCohB (db : MempoolTxDB) (ops : List TxOp) : Bool :=
  ops.all fun op =>
    match op with
    | .add id s _ =>
        match lookupKey id db.entries with
        | some s0 => s0 == s
        | none => true
    | .remove _ _ => true

/-- Pairwise coherence of queued adds: two adds of the same identifier
carry the same payload size (again because identifiers are content
hashes). -/
def pairCohB (ops : List TxOp) : Bool :=
  ops.all fun op =>
    match op with
    | .add id s _ =>
        ops.all fun op2 =>
          match op2 with
          | .add id2 s2 _ => !(id == id2) || s == s2
          | .remove _ _ => true
    | .remove _ _ => true

theorem keyOf_toBatchOp (op : TxOp) : op.toBatchOp.key = op.keyOf := by
  cases op <;> rfl

theorem find?_map_toBatchOp (id : TxId) (l : List TxOp) :
    (l.map TxOp.toBatchOp).find? (fun op => op.key == id) =
      (l.find? (fun op => op.keyOf == id)).map TxOp.toBatchOp := by
  induction l with
  | nil => rfl
  | cons op rest ih =>
      by_cases h : op.keyOf = id
      · have h1 : (op.toBatchOp.key == id) = true := by
          simp [keyOf_toBatchOp, h]
        have h2 : (op.keyOf == id) = true := by simp [h]
        simp [List.find?, h1, h2]
      · have h1 : (op.toBatchOp.key == id) = false := by
          simp [keyOf_toBatchOp, h]
        have h2 : (op.keyOf == id) = false := by simp [h]
        simp [List.find?, h1, h2, ih]

theorem lastOpFor_map_toBatchOp (ops : List TxOp) (id : TxId) :
    lastOpFor (ops.map TxOp.toBatchOp) id =
      (lastTxOpFor ops id).map TxOp.toBatchOp := by
  unfold lastOpFor lastTxOpFor
  rw [← List.map_reverse, find?_map_toBatchOp]

theorem lastTxOpFor_mem {ops : List TxOp} {id : TxId} {op : TxOp}
    (h : lastTxOpFor ops id = some op) : op ∈ ops ∧ op.keyOf = id := by
  unfold lastTxOpFor at h
  refine ⟨List.mem_reverse.1 (List.mem_of_find?_eq_some h), ?_⟩
  have := List.find?_some h
  simpa using this

theorem lastTxOpFor_eq_none_iff {ops : List TxOp} {id : TxId} :
    lastTxOpFor ops id = none ↔ ∀ op ∈ ops, op.keyOf ≠ id := by
  unfold lastTxOpFor
  rw [List.find?_eq_none]
  constructor
  · intro h op hmem
    simpa using h op (List.mem_reverse.2 hmem)
  · intro h op hmem
    simpa using h op (List.mem_reverse.1 hmem)

theorem lastTxOpFor_append (c J : List TxOp) (id : TxId) :
    lastTxOpFor (c ++ J) id =
      match lastTxOpFor J id with
      | some op => some op
      | none => lastTxOpFor c id := by
  unfold lastTxOpFor
  rw [List.reverse_append, List.find?_append]
  cases List.find? (fun op => op.keyOf == id) J.reverse <;> simp

theorem storeCohB_mem {db : MempoolTxDB} {ops : List TxOp}
    (h : storeCohB db ops = true) {id : TxId} {s cb s0 : Nat}
    (hmem : TxOp.add id s cb ∈ ops)
    (hlook : lookupKey id db.entries = some s0) : s0 = s := by
  rw [storeCohB, List.all_eq_true] at h
  have h2 : (match lookupKey id db.entries with
      | some s1 => s1 == s
      | none => true) = true := h _ hmem
  rw [hlook] at h2
  simpa using h2

theorem pairCohB_mem {ops : List TxOp} (h : pairCohB ops = true)
    {id : TxId} {s cb s2 cb2 : Nat}
    (h1 : TxOp.add id s cb ∈ ops) (h2 : TxOp.add id s2 cb2 ∈ ops) :
    s = s2 := by
  rw [pairCohB, List.all_eq_true] at h
  have h3 := h _ h1
  simp only [List.all_eq_true] at h3
  have h4 := h3 _ h2
  simpa using h4

theorem storeCohB_append {db : MempoolTxDB} {l1 l2 : List TxOp}
    (h : storeCohB db (l1 ++ l2) = true) :
    storeCohB db l1 = true ∧ storeCohB db l2 = true := by
  rw [storeCohB, List.all_eq_true] at h ⊢
  rw [storeCohB, List.all_eq_true]
  exact ⟨fun op hop => h op (List.mem_append.2 (Or.inl hop)),
         fun op hop => h op (List.mem_append.2 (Or.inr hop))⟩

theorem pairCohB_of_sub {ops' ops : List TxOp}
    (hsub : ∀ op ∈ ops', op ∈ ops) (h : pairCohB ops = true) :
    pairCohB ops' = true := by
  rw [pairCohB, List.all_eq_true]
  intro op hop
  cases op with
  | add id s cb =>
      simp only [List.all_eq_true]
      intro op2 hop2
      cases op2 with
      | add id2 s2 cb2 =>
          simp only
          by_cases hid : id = id2
          · subst hid
            have := pairCohB_mem h (hsub _ hop) (hsub _ hop2)
            simp [this]
          · simp [hid]
      | remove id2 s2 => rfl
  | remove id s => rfl

/-- Per-identifier contents after committing one coalesced chunk, with
the coherence of adds against the store collapsing the already-present
case. -/
theorem commit_lookup_ops {db : MempoolTxDB} (hwf : Wf db)
    {c : List TxOp} (hcoh : storeCohB db c = true) (id : TxId) :
    lookupKey id (commit db (c.map TxOp.toBatchOp)).1.entries =
      match lastTxOpFor c id with
      | some (TxOp.add _ s _) => some s
      | some (TxOp.remove _ _) => none
      | none => lookupKey id db.entries := by
  rw [commit_lookup hwf _ id, lastOpFor_map_toBatchOp]
  cases hl : lastTxOpFor c id with
  | none => rfl
  | some op =>
      cases op with
      | add id2 s cb =>
          obtain ⟨hmem, hkey⟩ := lastTxOpFor_mem hl
          have hkey' : id2 = id := hkey
          cases hlk : lookupKey id db.entries with
          | none => simp [TxOp.toBatchOp]
          | some s0 =>
              have hs : s0 = s :=
                storeCohB_mem hcoh (hkey' ▸ hmem) hlk
              simp [TxOp.toBatchOp, hs]
      | remove id2 s => rfl

/-- Committing one chunk keeps the remaining queued adds coherent with
the store. -/
theorem storeCohB_commit {db : MempoolTxDB} {c J : List TxOp}
    (hwf : Wf db) (hst : storeCohB db (c ++ J) = true)
    (hpair : pairCohB (c ++ J) = true) :
    storeCohB (commit db (c.map TxOp.toBatchOp)).1 J = true := by
  rw [storeCohB, List.all_eq_true]
  intro op hop
  cases op with
  | remove id s => rfl
  | add id s cb =>
      simp only
      rw [commit_lookup_ops hwf (storeCohB_append hst).1 id]
      cases hl : lastTxOpFor c id with
      | some op2 =>
          cases op2 with
          | add id2 s2 cb2 =>
              obtain ⟨hmem2, hkey2⟩ := lastTxOpFor_mem hl
              have hkey2' : id2 = id := hkey2
              have hm1 : TxOp.add id s2 cb2 ∈ c ++ J :=
                List.mem_append.2 (Or.inl (hkey2' ▸ hmem2))
              have hm2 : TxOp.add id s cb ∈ c ++ J :=
                List.mem_append.2 (Or.inr hop)
              have hs : s2 = s := pairCohB_mem hpair hm1 hm2
              simp [hs]
          | remove id2 s2 => rfl
      | none =>
          cases hlk : lookupKey id db.entries with
          | none => rfl
          | some s0 =>
              have : s0 = s :=
                storeCohB_mem hst (List.mem_append.2 (Or.inr hop)) hlk
              simp [this]

theorem runChunks_wf :
    ∀ (chunks : List (List TxOp)) (a : AsyncMempoolTxDB), Wf a.db →
      Wf (runChunks a chunks).db := by
  intro chunks
  induction chunks with
  | nil => intro a h; exact h
  | cons c cs ih =>
      intro a h
      have hstep : runChunks a (c :: cs) = runChunks (drainCycle a c) cs := rfl
      rw [hstep]
      refine ih _ ?_
      by_cases hc : c = []
      · simp [drainCycle, hc, h]
      · simp only [drainCycle, if_neg hc]
        exact commit_wf h _

theorem runChunks_writeCount :
    ∀ (chunks : List (List TxOp)) (a : AsyncMempoolTxDB), [] ∉ chunks →
      (runChunks a chunks).writeCount = a.writeCount + chunks.length := by
  intro chunks
  induction chunks with
  | nil => intro a _; rfl
  | cons c cs ih =>
      intro a h
      have hc : c ≠ [] := fun hcontra => h (hcontra ▸ List.mem_cons_self _ _)
      have hcs : [] ∉ cs := fun hcontra => h (List.mem_cons_of_mem _ hcontra)
      have hstep : runChunks a (c :: cs) = runChunks (drainCycle a c) cs := rfl
      rw [hstep, ih _ hcs]
      simp only [drainCycle, if_neg hc, List.length_cons]
      omega

/-- Per-identifier contents after a whole schedule of drain cycles: the
last request enqueued for the identifier before the barrier decides. -/
theorem runChunks_lookup :
    ∀ (chunks : List (List TxOp)) (db : MempoolTxDB) (n : Nat),
      Wf db → storeCohB db chunks.join = true →
      pairCohB chunks.join = true →
      ∀ id, lookupKey id (runChunks ⟨db, n⟩ chunks).db.entries =
        match lastTxOpFor chunks.join id with
        | some (TxOp.add _ s _) => some s
        | some (TxOp.remove _ _) => none
        | none => lookupKey id db.entries := by
  intro chunks
  induction chunks with
  | nil =>
      intro db n _ _ _ id
      simp [runChunks, lastTxOpFor, List.join, lookupKey]
  | cons c cs ih =>
      intro db n hwf hst hpair id
      have hjoin : (c :: cs).join = c ++ cs.join := by simp [List.join]
      rw [hjoin] at hst hpair
      by_cases hc : c = []
      · subst hc
        have hstep : runChunks ⟨db, n⟩ ([] :: cs) = runChunks ⟨db, n⟩ cs := rfl
        simp only [List.nil_append] at hst hpair
        rw [hstep, ih db n hwf hst hpair id, hjoin, List.nil_append]
      · have hstep : runChunks ⟨db, n⟩ (c :: cs)
            = runChunks ⟨(commit db (c.map TxOp.toBatchOp)).1, n + 1⟩ cs := by
          simp [runChunks, drainCycle, hc]
        rw [hstep]
        have hwf' : Wf (commit db (c.map TxOp.toBatchOp)).1 := commit_wf hwf _
        have hst' : storeCohB (commit db (c.map TxOp.toBatchOp)).1 cs.join = true :=
          storeCohB_commit hwf hst hpair
        have hpair' : pairCohB cs.join = true :=
          pairCohB_of_sub (fun op hop => List.mem_append.2 (Or.inr hop)) hpair
        rw [ih _ _ hwf' hst' hpair' id, hjoin, lastTxOpFor_append]
        cases hl : lastTxOpFor cs.join id with
        | some op => cases op <;> rfl
        | none =>
            simp only
            exact commit_lookup_ops hwf (storeCohB_append hst).1 id

/-- Applying the operations synchronously one commit per call is the
singleton-chunk schedule. -/
theorem applySyncOps_eq_runChunks :
    ∀ (ops : List TxOp) (db : MempoolTxDB) (n : Nat),
      applySyncOps db ops =
        (runChunks ⟨db, n⟩ (ops.map fun op => [op])).db := by
  intro ops
  induction ops with
  | nil => intro db n; rfl
  | cons op rest ih =>
      intro db n
      have h1 : applySyncOps db (op :: rest)
          = applySyncOps (commit db [op.toBatchOp]).1 rest := rfl
      have h2 : runChunks ⟨db, n⟩ ((op :: rest).map fun o => [o])
          = runChunks ⟨(commit db [op.toBatchOp]).1, n + 1⟩
              (rest.map fun o => [o]) := by
        simp [runChunks, drainCycle]
      rw [h1, h2, ih]

theorem join_map_singleton (ops : List TxOp) :
    (ops.map fun op => [op]).join = ops := by
  induction ops with
  | nil => rfl
  | cons op rest ih => simp [List.join, ih]

theorem singleton_schedule_valid (ops : List TxOp) :
    ValidSchedule ops (ops.map fun op => [op]) := by
  refine ⟨join_map_singleton ops, ?_⟩
  intro h
  rcases List.mem_map.1 h with ⟨op, _, heq⟩
  exact List.cons_ne_nil op [] heq

/-- Two well-formed stores with identical per-identifier contents have
equal counters. -/
theorem wf_counters_eq {d1 d2 : MempoolTxDB} (h1 : Wf d1) (h2 : Wf d2)
    (h : ∀ id, lookupKey id d1.entries = lookupKey id d2.entries) :
    d1.diskUsage = d2.diskUsage ∧ d1.txCount = d2.txCount := by
  have hperm : d1.entries.Perm d2.entries :=
    assoc_perm_of_lookupKey_eq h1.1 h2.1 h
  constructor
  · rw [h1.2.1, h2.2.1]
    exact (hperm.map Prod.snd).sum_eq
  · rw [h1.2.2, h2.2.2]
    exact hperm.length_eq

/-! ### Helper lemmas for the claim theorems -/

instance (ops : List TxOp) (chunks : List (List TxOp)) :
    Decidable (ValidSchedule ops chunks) := by
  unfold ValidSchedule; infer_instance

theorem asyncOpen_def (db : MempoolTxDB) :
    asyncOpen db = ⟨db, 0⟩ := rfl

theorem storeCohB_empty (ops : List TxOp) :
    storeCohB emptyTxDB ops = true := by
  rw [storeCohB, List.all_eq_true]
  intro op _
  cases op <;> rfl

theorem storeCohB_no_adds {db : MempoolTxDB} {ops : List TxOp}
    (h : ∀ op ∈ ops, ∀ id s cb, op ≠ TxOp.add id s cb) :
    storeCohB db ops = true := by
  rw [storeCohB, List.all_eq_true]
  intro op hop
  cases op with
  | add id s cb => exact absurd rfl (h _ hop id s cb)
  | remove id s => rfl

theorem pairCohB_no_adds {ops : List TxOp}
    (h : ∀ op ∈ ops, ∀ id s cb, op ≠ TxOp.add id s cb) :
    pairCohB ops = true := by
  rw [pairCohB, List.all_eq_true]
  intro op hop
  cases op with
  | add id s cb => exact absurd rfl (h _ hop id s cb)
  | remove id s => rfl

theorem lastTxOpFor_of_nodup {ops : List TxOp}
    (hn : (ops.map TxOp.keyOf).Nodup) {op : TxOp} (hmem : op ∈ ops) :
    lastTxOpFor ops op.keyOf = some op := by
  cases hl : lastTxOpFor ops op.keyOf with
  | none => exact absurd rfl (lastTxOpFor_eq_none_iff.1 hl op hmem)
  | some op2 =>
      obtain ⟨hmem2, hkey2⟩ := lastTxOpFor_mem hl
      have : op2 = op := List.inj_on_of_nodup_map hn hmem2 hmem hkey2
      rw [this]

theorem lastTxOpFor_snoc (ops : List TxOp) (op : TxOp) (id : TxId) :
    lastTxOpFor (ops ++ [op]) id =
      if op.keyOf = id then some op else lastTxOpFor ops id := by
  unfold lastTxOpFor
  rw [List.reverse_append]
  by_cases h : op.keyOf = id
  · rw [if_pos h]
    simp [List.find?, h]
  · rw [if_neg h]
    simp only [List.reverse_cons, List.reverse_nil, List.nil_append,
      List.singleton_append, List.find?]
    have : (op.keyOf == id) = false := by simp [h]
    simp [this]

theorem counters_zero_of_lookup_none {d : MempoolTxDB} (hwf : Wf d)
    (h : ∀ id, lookupKey id d.entries = none) :
    d.diskUsage = 0 ∧ d.txCount = 0 := by
  have hnil : d.entries = [] := eq_nil_of_lookupKey_none h
  refine ⟨?_, ?_⟩
  · rw [hwf.2.1, hnil]; rfl
  · rw [hwf.2.2, hnil]; rfl

/-- Writes of already-present identifiers leave the per-identifier
contents of the store unchanged. -/
theorem addTransactions_present_lookup {db : MempoolTxDB}
    {txs : List TxRec} (hwf : Wf db)
    (hpres : ∀ t ∈ txs, (lookupKey t.txid db.entries).isSome = true) :
    ∀ id, lookupKey id (addTransactions db txs).1.entries =
      lookupKey id db.entries := by
  intro id
  have hgoal : lookupKey id
      (commit db (txs.map fun t => BatchOp.write t.txid t.size 0)).1.entries =
      lookupKey id db.entries := by
    rw [commit_lookup hwf _ id]
    cases hl : lastOpFor (txs.map fun t => BatchOp.write t.txid t.size 0) id with
    | none => rfl
    | some op =>
        obtain ⟨hmem, hkey⟩ := lastOpFor_mem hl
        rcases List.mem_map.1 hmem with ⟨t, ht, heq⟩
        subst heq
        have htid : t.txid = id := hkey
        have hps := hpres t ht
        rw [htid] at hps
        cases hlk : lookupKey id db.entries with
        | none => rw [hlk] at hps; simp at hps
        | some s0 => rfl
  exact hgoal

theorem addEach_present_lookup :
    ∀ (txs : List TxRec) (db : MempoolTxDB), Wf db →
      (∀ t ∈ txs, (lookupKey t.txid db.entries).isSome = true) →
      ∀ id, lookupKey id (addEach db txs).entries = lookupKey id db.entries := by
  intro txs
  induction txs with
  | nil => intro db _ _ id; rfl
  | cons t rest ih =>
      intro db hwf hpres id
      have hstep : addEach db (t :: rest)
          = addEach (addTransactions db [t]).1 rest := rfl
      have hwf' : Wf (addTransactions db [t]).1 := commit_wf hwf _
      have hpres1 : ∀ u ∈ [t], (lookupKey u.txid db.entries).isSome = true := by
        intro u hu
        rw [List.mem_singleton] at hu
        exact hu ▸ hpres t (List.mem_cons_self _ _)
      have hone := addTransactions_present_lookup hwf hpres1
      have hpres' : ∀ u ∈ rest,
          (lookupKey u.txid (addTransactions db [t]).1.entries).isSome = true := by
        intro u hu
        rw [hone u.txid]
        exact hpres u (List.mem_cons_of_mem _ hu)
      rw [hstep, ih _ hwf' hpres', hone id]

theorem addEach_eq_applySyncOps (db : MempoolTxDB) (txs : List TxRec) :
    addEach db txs =
      applySyncOps db (txs.map fun t => TxOp.add t.txid t.size 0) := by
  unfold addEach applySyncOps
  rw [List.foldl_map]
  rfl

theorem removeEach_eq_applySyncOps (db : MempoolTxDB)
    (txdata : List (TxId × Nat)) :
    removeEach db txdata =
      applySyncOps db (txdata.map fun p => TxOp.remove p.1 p.2) := by
  unfold removeEach applySyncOps
  rw [List.foldl_map]
  rfl

theorem canonical_keys_eq (txs : List TxRec) :
    ((txs.map fun t => (t.txid, t.size)).map Prod.fst) = txs.map TxRec.txid := by
  rw [List.map_map]
  rfl

theorem canonical_keys_nodup {txs : List TxRec}
    (hids : (txs.map TxRec.txid).Nodup) :
    ((txs.map fun t => (t.txid, t.size)).map Prod.fst).Nodup := by
  rw [canonical_keys_eq]
  exact hids

theorem adds_keys_eq (txs : List TxRec) :
    ((txs.map fun t => TxOp.add t.txid t.size 0).map TxOp.keyOf)
      = txs.map TxRec.txid := by
  rw [List.map_map]
  rfl

theorem pairCohB_adds_nodup (txs : List TxRec)
    (hids : (txs.map TxRec.txid).Nodup) :
    pairCohB (txs.map fun t => TxOp.add t.txid t.size 0) = true := by
  rw [pairCohB, List.all_eq_true]
  intro op hop
  rcases List.mem_map.1 hop with ⟨t, ht, heq⟩
  subst heq
  have hgoal : ((txs.map fun t => TxOp.add t.txid t.size 0).all fun op2 =>
      match op2 with
      | TxOp.add id2 s2 _ => !(t.txid == id2) || t.size == s2
      | TxOp.remove _ _ => true) = true := by
    rw [List.all_eq_true]
    intro op2 hop2
    rcases List.mem_map.1 hop2 with ⟨u, hu, heq2⟩
    subst heq2
    by_cases hid : t.txid = u.txid
    · have htu : t = u := List.inj_on_of_nodup_map hids ht hu hid
      subst htu
      simp
    · simp [hid]
  exact hgoal

/-- Per-identifier contents of the store after persisting a set of
distinct fresh transactions under an arbitrary worker schedule: exactly
the submitted records. -/
theorem adds_runChunks_lookup (txs : List TxRec)
    (hids : (txs.map TxRec.txid).Nodup)
    (chunks : List (List TxOp)) (n : Nat)
    (hv : ValidSchedule (txs.map fun t => TxOp.add t.txid t.size 0) chunks) :
    ∀ id, lookupKey id (runChunks ⟨emptyTxDB, n⟩ chunks).db.entries
      = lookupKey id (txs.map fun t => (t.txid, t.size)) := by
  have hwf0 : Wf emptyTxDB := ⟨List.nodup_nil, rfl, rfl⟩
  have hst := storeCohB_empty chunks.join
  have hpair : pairCohB chunks.join = true := by
    rw [hv.1]; exact pairCohB_adds_nodup txs hids
  intro id
  rw [runChunks_lookup chunks emptyTxDB n hwf0 hst hpair id, hv.1]
  have hkeys : ((txs.map fun t => TxOp.add t.txid t.size 0).map TxOp.keyOf).Nodup := by
    rw [adds_keys_eq]; exact hids
  by_cases hid : id ∈ txs.map TxRec.txid
  · rcases List.mem_map.1 hid with ⟨t, ht, htid⟩
    have hmem : TxOp.add t.txid t.size 0
        ∈ txs.map fun t => TxOp.add t.txid t.size 0 :=
      List.mem_map.2 ⟨t, ht, rfl⟩
    have hl : lastTxOpFor (txs.map fun t => TxOp.add t.txid t.size 0) t.txid
        = some (TxOp.add t.txid t.size 0) := lastTxOpFor_of_nodup hkeys hmem
    subst htid
    rw [hl,
      mem_lookupKey_of_nodup (canonical_keys_nodup hids)
        (List.mem_map.2 ⟨t, ht, rfl⟩)]
  · have hnone : lastTxOpFor (txs.map fun t => TxOp.add t.txid t.size 0) id
        = none := by
      rw [lastTxOpFor_eq_none_iff]
      intro op hop
      rcases List.mem_map.1 hop with ⟨t, ht, heq⟩
      subst heq
      intro hcontra
      exact hid (List.mem_map.2 ⟨t, ht, hcontra⟩)
    have hc : lookupKey id (txs.map fun t => (t.txid, t.size)) = none := by
      rw [lookupKey_eq_none_iff, canonical_keys_eq]
      exact hid
    rw [hnone, hc]
    rfl

/-- Shared facts about a store freshly filled one call at a time with a
set of distinct transactions. -/
theorem addEach_fresh_facts (txs : List TxRec)
    (hids : (txs.map TxRec.txid).Nodup) :
    Wf (addEach emptyTxDB txs) ∧
    ∀ id, lookupKey id (addEach emptyTxDB txs).entries
      = lookupKey id (txs.map fun t => (t.txid, t.size)) := by
  have hwf0 : Wf emptyTxDB := ⟨List.nodup_nil, rfl, rfl⟩
  have hbridge : addEach emptyTxDB txs
      = (runChunks ⟨emptyTxDB, 0⟩
          ((txs.map fun t => TxOp.add t.txid t.size 0).map fun op => [op])).db := by
    rw [addEach_eq_applySyncOps, applySyncOps_eq_runChunks]
  constructor
  · rw [hbridge]
    exact runChunks_wf _ _ hwf0
  · intro id
    rw [hbridge]
    exact adds_runChunks_lookup txs hids _ 0
      (singleton_schedule_valid _) id

/-! ### Claim theorems -/

/-- C1: Batch commit resolution: for every batch and identifier, the
final applied state is decided by the last operation queued for that
identifier in submission order; a final `Write` on a previously absent
identifier stores the value and fires the last `Write`'s `onPersisted`
callback exactly once; a final `Write` on a previously present
identifier performs no physical write (the stored value is untouched)
and fires no callback; a final `Delete` leaves the identifier absent and
never fires a callback. -/
theorem batch_commit_resolution (db : MempoolTxDB) (b : List BatchOp)
    (id : TxId) (hwf : Wf db) :
    (∀ s cb, lastOpFor b id = some (BatchOp.write id s cb) →
      lookupKey id db.entries = none →
      lookupKey id (commit db b).1.entries = some s ∧
      (commit db b).2.filter (fun p => p.1 == id) = [(id, cb)]) ∧
    (∀ s cb s0, lastOpFor b id = some (BatchOp.write id s cb) →
      lookupKey id db.entries = some s0 →
      lookupKey id (commit db b).1.entries = some s0 ∧
      (commit db b).2.filter (fun p => p.1 == id) = []) ∧
    (∀ sd, lastOpFor b id = some (BatchOp.delete id sd) →
      lookupKey id (commit db b).1.entries = none ∧
      (commit db b).2.filter (fun p => p.1 == id) = []) := by
  refine ⟨?_, ?_, ?_⟩
  · intro s cb hlast hpre
    constructor
    · rw [commit_lookup hwf b id, hlast]
      simp [hpre]
    · rw [commit_cbs hwf b,
        cbsOf_filter db.entries (resolveBatch_keys_nodup b) id,
        resolveBatch_lookup, hlast]
      simp [toFinal, hpre]
  · intro s cb s0 hlast hpre
    constructor
    · rw [commit_lookup hwf b id, hlast]
      simp [hpre]
    · rw [commit_cbs hwf b,
        cbsOf_filter db.entries (resolveBatch_keys_nodup b) id,
        resolveBatch_lookup, hlast]
      simp [toFinal, hpre]
  · intro sd hlast
    constructor
    · rw [commit_lookup hwf b id, hlast]
    · rw [commit_cbs hwf b,
        cbsOf_filter db.entries (resolveBatch_keys_nodup b) id,
        resolveBatch_lookup, hlast]
      simp [toFinal]

theorem batch_commit_resolution_witness :
    (lookupKey 1 (commit emptyTxDB
        [BatchOp.write 1 5 7, BatchOp.delete 1 5, BatchOp.write 1 5 8]).1.entries
        = some 5 ∧
      (commit emptyTxDB
        [BatchOp.write 1 5 7, BatchOp.delete 1 5, BatchOp.write 1 5 8]).2.filter
          (fun p => p.1 == 1) = [(1, 8)]) ∧
    (lookupKey 1 (commit (commit emptyTxDB [BatchOp.write 1 5 0]).1
        [BatchOp.delete 1 5, BatchOp.write 1 5 9]).1.entries = some 5 ∧
      (commit (commit emptyTxDB [BatchOp.write 1 5 0]).1
        [BatchOp.delete 1 5, BatchOp.write 1 5 9]).2.filter
          (fun p => p.1 == 1) = []) ∧
    (lookupKey 1 (commit emptyTxDB
        [BatchOp.write 1 5 7, BatchOp.delete 1 5]).1.entries = none ∧
      (commit emptyTxDB
        [BatchOp.write 1 5 7, BatchOp.delete 1 5]).2.filter
          (fun p => p.1 == 1) = []) :=
  ⟨(batch_commit_resolution emptyTxDB
      [BatchOp.write 1 5 7, BatchOp.delete 1 5, BatchOp.write 1 5 8] 1
      (by decide)).1 5 8 (by decide) (by decide),
    (batch_commit_resolution (commit emptyTxDB [BatchOp.write 1 5 0]).1
      [BatchOp.delete 1 5, BatchOp.write 1 5 9] 1
      (by decide)).2.1 5 9 5 (by decide) (by decide),
    (batch_commit_resolution emptyTxDB
      [BatchOp.write 1 5 7, BatchOp.delete 1 5] 1
      (by decide)).2.2 5 (by decide)⟩

/-- C2: Commit is atomic: on I/O failure the call reports failure and
the store, its contents and both counters are exactly as before (so the
same batch can be retried and behaves as a fresh commit); on success the
call reports success and the counters again match the store's contents
exactly, i.e. they moved by the net delta of the applied effects. -/
theorem commit_atomic (db : MempoolTxDB) (b : List BatchOp) (hwf : Wf db) :
    commitRes false db b = (false, db, []) ∧
    (commitRes true db b).1 = true ∧
    Wf (commitRes true db b).2.1 ∧
    commitRes true (commitRes false db b).2.1 b = commitRes true db b := by
  refine ⟨rfl, rfl, ?_, rfl⟩
  have h := commit_wf hwf b
  simpa [commitRes] using h

theorem commit_atomic_witness :
    commitRes false emptyTxDB [BatchOp.write 1 5 0] = (false, emptyTxDB, []) ∧
    Wf (commitRes true emptyTxDB [BatchOp.write 1 5 0]).2.1 :=
  ⟨(commit_atomic emptyTxDB [BatchOp.write 1 5 0] (by decide)).1,
    (commit_atomic emptyTxDB [BatchOp.write 1 5 0] (by decide)).2.2.1⟩

/-- C4: Checkpoint (xref key) contract: `GetXrefKey` returns exactly the
last value set when nothing intervened, `RemoveXrefKey` clears it, and
any `AddTransactions` or `RemoveTransactions` call — including a remove
whose net effect on every key is a no-op — clears it as a side
effect. -/
theorem xref_key_contract (db : MempoolTxDB) (v v2 : Nat)
    (txs : List TxRec) (txdata : List (TxId × Nat)) :
    getXrefKey (setXrefKey db v).1 = some v ∧
    getXrefKey (setXrefKey (setXrefKey db v).1 v2).1 = some v2 ∧
    getXrefKey (removeXrefKey (setXrefKey db v).1).1 = none ∧
    getXrefKey (addTransactions (setXrefKey db v).1 txs).1 = none ∧
    getXrefKey (removeTransactions (setXrefKey db v).1 txdata).1 = none := by
  refine ⟨rfl, rfl, rfl, ?_, ?_⟩
  · exact commit_xref _ _
  · exact commit_xref _ _

/-- C8: Idempotent remove: removing identifiers that were never added
reports success and leaves both counters at zero with every lookup still
missing. -/
theorem idempotent_remove (txdata : List (TxId × Nat)) :
    (removeTransactions emptyTxDB txdata).2 = true ∧
    (removeTransactions emptyTxDB txdata).1.diskUsage = 0 ∧
    (removeTransactions emptyTxDB txdata).1.txCount = 0 ∧
    ∀ id, getTransaction (removeTransactions emptyTxDB txdata).1 id = none := by
  have hwf0 : Wf emptyTxDB := ⟨List.nodup_nil, rfl, rfl⟩
  have hlook : ∀ id, lookupKey id
      (commit emptyTxDB (txdata.map fun p => BatchOp.delete p.1 p.2)).1.entries
      = none := by
    intro id
    rw [commit_lookup hwf0 _ id]
    cases hl : lastOpFor (txdata.map fun p => BatchOp.delete p.1 p.2) id with
    | none => rfl
    | some op =>
        obtain ⟨hmem, _⟩ := lastOpFor_mem hl
        rcases List.mem_map.1 hmem with ⟨p, _, heq⟩
        rw [← heq]
  have hwf := commit_wf hwf0 (txdata.map fun p => BatchOp.delete p.1 p.2)
  have hzero := counters_zero_of_lookup_none hwf hlook
  exact ⟨rfl, hzero.1, hzero.2, fun id => hlook id⟩

/-- C9: Clear: regardless of prior content, `ClearDatabase` reports
success and afterwards the usage and count are zero, every lookup
misses, and the checkpoint reference is cleared. -/
theorem clear_database (db : MempoolTxDB) :
    clearDatabase db = (emptyTxDB, true) ∧
    (clearDatabase db).1.diskUsage = 0 ∧
    (clearDatabase db).1.txCount = 0 ∧
    (∀ id, getTransaction (clearDatabase db).1 id = none) ∧
    getXrefKey (clearDatabase db).1 = none :=
  ⟨rfl, rfl, rfl, fun _ => rfl, rfl⟩

/-- C10: Re-adding transactions that are already present reports
success, leaves every record retrievable with its stored value, and
never decreases the usage or the count. -/
theorem re_add_monotone (db : MempoolTxDB) (txs : List TxRec)
    (hwf : Wf db)
    (hpres : ∀ t ∈ txs, (lookupKey t.txid db.entries).isSome = true) :
    (addTransactions db txs).2 = true ∧
    (∀ id, getTransaction (addTransactions db txs).1 id
        = getTransaction db id) ∧
    db.diskUsage ≤ (addTransactions db txs).1.diskUsage ∧
    db.txCount ≤ (addTransactions db txs).1.txCount := by
  have hlook := addTransactions_present_lookup hwf hpres
  have hwf' : Wf (addTransactions db txs).1 := commit_wf hwf _
  have hce := wf_counters_eq hwf' hwf hlook
  exact ⟨rfl, fun id => hlook id, le_of_eq hce.1.symm, le_of_eq hce.2.symm⟩

theorem re_add_monotone_witness :
    ((addTransactions (addTransactions emptyTxDB [⟨1, 5⟩]).1 [⟨1, 5⟩]).2
        = true) ∧
    (addTransactions emptyTxDB [⟨1, 5⟩]).1.diskUsage
      ≤ (addTransactions (addTransactions emptyTxDB [⟨1, 5⟩]).1 [⟨1, 5⟩]).1.diskUsage :=
  ⟨(re_add_monotone (addTransactions emptyTxDB [⟨1, 5⟩]).1 [⟨1, 5⟩]
      (by decide) (by decide)).1,
    (re_add_monotone (addTransactions emptyTxDB [⟨1, 5⟩]).1 [⟨1, 5⟩]
      (by decide) (by decide)).2.2.1⟩

/-- C3: Accounting invariant: after adding N distinct transactions
individually to a fresh store, the usage equals the sum of their sizes
and the count equals N; re-adding the same set changes neither counter
and every transaction stays retrievable. -/
theorem accounting_invariant (txs : List TxRec)
    (hids : (txs.map TxRec.txid).Nodup) :
    (addEach emptyTxDB txs).diskUsage = (txs.map TxRec.size).sum ∧
    (addEach emptyTxDB txs).txCount = txs.length ∧
    (addEach (addEach emptyTxDB txs) txs).diskUsage
      = (addEach emptyTxDB txs).diskUsage ∧
    (addEach (addEach emptyTxDB txs) txs).txCount
      = (addEach emptyTxDB txs).txCount ∧
    ∀ t ∈ txs, getTransaction (addEach (addEach emptyTxDB txs) txs) t.txid
      = some t.size := by
  obtain ⟨hwf1, hlook1⟩ := addEach_fresh_facts txs hids
  have hperm : (addEach emptyTxDB txs).entries.Perm
      (txs.map fun t => (t.txid, t.size)) :=
    assoc_perm_of_lookupKey_eq hwf1.1 (canonical_keys_nodup hids) hlook1
  have husage : (addEach emptyTxDB txs).diskUsage = (txs.map TxRec.size).sum := by
    rw [hwf1.2.1]
    have h := (hperm.map Prod.snd).sum_eq
    rw [sumSizes, h, List.map_map]
    rfl
  have hcount : (addEach emptyTxDB txs).txCount = txs.length := by
    rw [hwf1.2.2, hperm.length_eq, List.length_map]
  have hpres : ∀ t ∈ txs,
      (lookupKey t.txid (addEach emptyTxDB txs).entries).isSome = true := by
    intro t ht
    rw [hlook1 t.txid,
      mem_lookupKey_of_nodup (canonical_keys_nodup hids)
        (List.mem_map.2 ⟨t, ht, rfl⟩)]
    rfl
  have hlook2 := addEach_present_lookup txs (addEach emptyTxDB txs) hwf1 hpres
  have hwf2 : Wf (addEach (addEach emptyTxDB txs) txs) := by
    rw [addEach_eq_applySyncOps,
      applySyncOps_eq_runChunks (txs.map fun t => TxOp.add t.txid t.size 0)
        (addEach emptyTxDB txs) 0]
    exact runChunks_wf _ _ hwf1
  have hce := wf_counters_eq hwf2 hwf1 hlook2
  refine ⟨husage, hcount, hce.1, hce.2, ?_⟩
  intro t ht
  show lookupKey t.txid (addEach (addEach emptyTxDB txs) txs).entries
    = some t.size
  rw [hlook2 t.txid, hlook1 t.txid]
  exact mem_lookupKey_of_nodup (canonical_keys_nodup hids)
    (List.mem_map.2 ⟨t, ht, rfl⟩)

theorem accounting_invariant_witness :
    (addEach emptyTxDB [⟨1, 5⟩, ⟨2, 7⟩]).diskUsage
      = ([(⟨1, 5⟩ : TxRec), ⟨2, 7⟩].map TxRec.size).sum ∧
    (addEach emptyTxDB [⟨1, 5⟩, ⟨2, 7⟩]).txCount = 2 :=
  ⟨(accounting_invariant [⟨1, 5⟩, ⟨2, 7⟩] (by decide)).1,
    (accounting_invariant [⟨1, 5⟩, ⟨2, 7⟩] (by decide)).2.1⟩

/-- C7: Removal correctness: after adding N distinct transactions,
removing them either one call at a time or all at once as a single batch
leaves the usage and count at zero, and every subsequent lookup of their
identifiers misses. -/
theorem removal_correctness (txs : List TxRec)
    (hids : (txs.map TxRec.txid).Nodup) :
    (removeEach (addEach emptyTxDB txs)
        (txs.map fun t => (t.txid, t.size))).diskUsage = 0 ∧
    (removeEach (addEach emptyTxDB txs)
        (txs.map fun t => (t.txid, t.size))).txCount = 0 ∧
    (∀ t ∈ txs, getTransaction (removeEach (addEach emptyTxDB txs)
        (txs.map fun t => (t.txid, t.size))) t.txid = none) ∧
    (removeTransactions (addEach emptyTxDB txs)
        (txs.map fun t => (t.txid, t.size))).1.diskUsage = 0 ∧
    (removeTransactions (addEach emptyTxDB txs)
        (txs.map fun t => (t.txid, t.size))).1.txCount = 0 ∧
    ∀ t ∈ txs, getTransaction (removeTransactions (addEach emptyTxDB txs)
        (txs.map fun t => (t.txid, t.size))).1 t.txid = none := by
  obtain ⟨hwf1, hlook1⟩ := addEach_fresh_facts txs hids
  have hmiss : ∀ id, id ∉ txs.map TxRec.txid →
      lookupKey id (addEach emptyTxDB txs).entries = none := by
    intro id hid
    rw [hlook1 id, lookupKey_eq_none_iff, canonical_keys_eq]
    exact hid
  have hlookB : ∀ id, lookupKey id (commit (addEach emptyTxDB txs)
      ((txs.map fun t => (t.txid, t.size)).map
        fun p => BatchOp.delete p.1 p.2)).1.entries = none := by
    intro id
    rw [commit_lookup hwf1 _ id]
    cases hl : lastOpFor ((txs.map fun t => (t.txid, t.size)).map
        fun p => BatchOp.delete p.1 p.2) id with
    | some op =>
        rcases List.mem_map.1 (lastOpFor_mem hl).1 with ⟨p, _, heq⟩
        rw [← heq]
    | none =>
        have hid : id ∉ txs.map TxRec.txid := by
          intro hidmem
          rcases List.mem_map.1 hidmem with ⟨t, ht, htid⟩
          have hop : BatchOp.delete t.txid t.size
              ∈ (txs.map fun t => (t.txid, t.size)).map
                  fun p => BatchOp.delete p.1 p.2 :=
            List.mem_map.2 ⟨(t.txid, t.size), List.mem_map.2 ⟨t, ht, rfl⟩, rfl⟩
          exact (lastOpFor_eq_none_iff.1 hl _ hop) htid
        exact hmiss id hid
  have hwfB := commit_wf hwf1 ((txs.map fun t => (t.txid, t.size)).map
    fun p => BatchOp.delete p.1 p.2)
  have hzB := counters_zero_of_lookup_none hwfB hlookB
  have hbridge : removeEach (addEach emptyTxDB txs)
      (txs.map fun t => (t.txid, t.size))
      = (runChunks ⟨addEach emptyTxDB txs, 0⟩
          (((txs.map fun t => (t.txid, t.size)).map
            fun p => TxOp.remove p.1 p.2).map fun op => [op])).db := by
    rw [removeEach_eq_applySyncOps, applySyncOps_eq_runChunks]
  have hnoadds : ∀ op ∈ (txs.map fun t => (t.txid, t.size)).map
      (fun p => TxOp.remove p.1 p.2), ∀ idd s cb, op ≠ TxOp.add idd s cb := by
    intro op hop idd s cb
    rcases List.mem_map.1 hop with ⟨p, _, heq⟩
    rw [← heq]
    simp
  have hst : storeCohB (addEach emptyTxDB txs)
      (((txs.map fun t => (t.txid, t.size)).map
        (fun p => TxOp.remove p.1 p.2)).map fun op => [op]).join = true := by
    rw [join_map_singleton]
    exact storeCohB_no_adds hnoadds
  have hpair : pairCohB (((txs.map fun t => (t.txid, t.size)).map
      (fun p => TxOp.remove p.1 p.2)).map fun op => [op]).join = true := by
    rw [join_map_singleton]
    exact pairCohB_no_adds hnoadds
  have hlookO : ∀ id, lookupKey id (runChunks ⟨addEach emptyTxDB txs, 0⟩
      (((txs.map fun t => (t.txid, t.size)).map
        (fun p => TxOp.remove p.1 p.2)).map fun op => [op])).db.entries
      = none := by
    intro id
    rw [runChunks_lookup _ _ 0 hwf1 hst hpair id, join_map_singleton]
    cases hl : lastTxOpFor ((txs.map fun t => (t.txid, t.size)).map
        fun p => TxOp.remove p.1 p.2) id with
    | some op =>
        rcases List.mem_map.1 (lastTxOpFor_mem hl).1 with ⟨p, _, heq⟩
        rw [← heq]
    | none =>
        have hid : id ∉ txs.map TxRec.txid := by
          intro hidmem
          rcases List.mem_map.1 hidmem with ⟨t, ht, htid⟩
          have hop : TxOp.remove t.txid t.size
              ∈ (txs.map fun t => (t.txid, t.size)).map
                  fun p => TxOp.remove p.1 p.2 :=
            List.mem_map.2 ⟨(t.txid, t.size), List.mem_map.2 ⟨t, ht, rfl⟩, rfl⟩
          exact (lastTxOpFor_eq_none_iff.1 hl _ hop) htid
        exact hmiss id hid
  have hwfO : Wf (runChunks ⟨addEach emptyTxDB txs, 0⟩
      (((txs.map fun t => (t.txid, t.size)).map
        (fun p => TxOp.remove p.1 p.2)).map fun op => [op])).db :=
    runChunks_wf _ _ hwf1
  have hzO := counters_zero_of_lookup_none hwfO hlookO
  refine ⟨?_, ?_, ?_, hzB.1, hzB.2, fun t _ => hlookB t.txid⟩
  · rw [hbridge]; exact hzO.1
  · rw [hbridge]; exact hzO.2
  · intro t _
    show lookupKey t.txid (removeEach (addEach emptyTxDB txs)
        (txs.map fun t => (t.txid, t.size))).entries = none
    rw [hbridge]
    exact hlookO t.txid

theorem removal_correctness_witness :
    (removeEach (addEach emptyTxDB [⟨1, 5⟩, ⟨2, 7⟩])
        ([(⟨1, 5⟩ : TxRec), ⟨2, 7⟩].map fun t => (t.txid, t.size))).txCount = 0 ∧
    (removeTransactions (addEach emptyTxDB [⟨1, 5⟩, ⟨2, 7⟩])
        ([(⟨1, 5⟩ : TxRec), ⟨2, 7⟩].map fun t => (t.txid, t.size))).1.diskUsage = 0 :=
  ⟨(removal_correctness [⟨1, 5⟩, ⟨2, 7⟩] (by decide)).2.1,
    (removal_correctness [⟨1, 5⟩, ⟨2, 7⟩] (by decide)).2.2.2.1⟩

/-- C5: Sync barrier refinement: after the worker has committed, under
any schedule of drain cycles, every operation enqueued before `Sync()`,
the store contents and both counters equal applying the same operations
in submission order directly to the synchronous Transaction Store. -/
theorem sync_barrier_refinement (db : MempoolTxDB) (ops : List TxOp)
    (chunks : List (List TxOp)) (hwf : Wf db)
    (hst : storeCohB db ops = true) (hpair : pairCohB ops = true)
    (hs : ValidSchedule ops chunks) :
    (∀ id, getTransaction (runChunks (asyncOpen db) chunks).db id
        = getTransaction (applySyncOps db ops) id) ∧
    (runChunks (asyncOpen db) chunks).db.diskUsage
      = (applySyncOps db ops).diskUsage ∧
    (runChunks (asyncOpen db) chunks).db.txCount
      = (applySyncOps db ops).txCount := by
  have hwfA : Wf (runChunks (asyncOpen db) chunks).db :=
    runChunks_wf chunks _ hwf
  have hwfS : Wf (applySyncOps db ops) := by
    rw [applySyncOps_eq_runChunks ops db 0]
    exact runChunks_wf _ _ hwf
  have hstJ : storeCohB db chunks.join = true := by
    rw [hs.1]; exact hst
  have hpairJ : pairCohB chunks.join = true := by
    rw [hs.1]; exact hpair
  have hstS : storeCohB db ((ops.map fun op => [op]).join) = true := by
    rw [join_map_singleton]; exact hst
  have hpairS : pairCohB ((ops.map fun op => [op]).join) = true := by
    rw [join_map_singleton]; exact hpair
  have hlook : ∀ id, lookupKey id (runChunks (asyncOpen db) chunks).db.entries
      = lookupKey id (applySyncOps db ops).entries := by
    intro id
    have hA := runChunks_lookup chunks db 0 hwf hstJ hpairJ id
    have hS := runChunks_lookup (ops.map fun op => [op]) db 0 hwf hstS hpairS id
    rw [hs.1] at hA
    rw [join_map_singleton] at hS
    rw [asyncOpen_def, hA, applySyncOps_eq_runChunks ops db 0, hS]
  have hce := wf_counters_eq hwfA hwfS hlook
  exact ⟨fun id => hlook id, hce.1, hce.2⟩

theorem sync_barrier_refinement_witness :
    (runChunks (asyncOpen emptyTxDB)
        [[TxOp.add 1 5 0, TxOp.add 2 7 0], [TxOp.remove 1 5]]).db.txCount
      = (applySyncOps emptyTxDB
          [TxOp.add 1 5 0, TxOp.add 2 7 0, TxOp.remove 1 5]).txCount ∧
    (runChunks (asyncOpen emptyTxDB)
        [[TxOp.add 1 5 0, TxOp.add 2 7 0], [TxOp.remove 1 5]]).db.diskUsage
      = (applySyncOps emptyTxDB
          [TxOp.add 1 5 0, TxOp.add 2 7 0, TxOp.remove 1 5]).diskUsage :=
  ⟨(sync_barrier_refinement emptyTxDB
      [TxOp.add 1 5 0, TxOp.add 2 7 0, TxOp.remove 1 5]
      [[TxOp.add 1 5 0, TxOp.add 2 7 0], [TxOp.remove 1 5]]
      (by decide) (by decide) (by decide) (by decide)).2.2,
    (sync_barrier_refinement emptyTxDB
      [TxOp.add 1 5 0, TxOp.add 2 7 0, TxOp.remove 1 5]
      [[TxOp.add 1 5 0, TxOp.add 2 7 0], [TxOp.remove 1 5]]
      (by decide) (by decide) (by decide) (by decide)).2.1⟩

/-! ### Coalescing (C6) -/

/-- The 1223 individual Add requests of the coalescing test: distinct
identifiers, unit payload size. -/
def coalesceOps (n : Nat) : List TxOp :=
  (List.range n).map fun i => TxOp.add i 1 0

theorem length_le_join_length {α : Type} :
    ∀ chunks : List (List α), [] ∉ chunks →
      chunks.length ≤ chunks.join.length := by
  intro chunks
  induction chunks with
  | nil => intro _; simp
  | cons c cs ih =>
      intro h
      have hc : c ≠ [] := fun hcontra => h (hcontra ▸ List.mem_cons_self _ _)
      have hcs : [] ∉ cs := fun hcontra => h (List.mem_cons_of_mem _ hcontra)
      have h1 : 1 ≤ c.length := List.length_pos.2 hc
      have h2 := ih hcs
      have hjoin : (c :: cs).join = c ++ cs.join := by simp [List.join]
      rw [hjoin]
      simp only [List.length_cons, List.length_append]
      omega

theorem length_lt_join_length {α : Type} :
    ∀ chunks : List (List α), [] ∉ chunks →
      (∃ c ∈ chunks, 2 ≤ c.length) →
      chunks.length < chunks.join.length := by
  intro chunks
  induction chunks with
  | nil =>
      intro _ hw
      rcases hw with ⟨c, hc, _⟩
      simp at hc
  | cons c cs ih =>
      intro h hw
      have hc : c ≠ [] := fun hcontra => h (hcontra ▸ List.mem_cons_self _ _)
      have hcs : [] ∉ cs := fun hcontra => h (List.mem_cons_of_mem _ hcontra)
      have hjoin : (c :: cs).join = c ++ cs.join := by simp [List.join]
      rw [hjoin]
      simp only [List.length_cons, List.length_append]
      rcases hw with ⟨c2, hc2, hlen⟩
      rcases List.mem_cons.1 hc2 with h1 | h1
      · subst h1
        have := length_le_join_length cs hcs
        omega
      · have hstrict := ih hcs ⟨c2, h1, hlen⟩
        have h1c : 1 ≤ c.length := List.length_pos.2 hc
        omega

theorem coalesceOps_eq (n : Nat) :
    coalesceOps n = ((List.range n).map fun i => TxRec.mk i 1).map
      fun t => TxOp.add t.txid t.size 0 := by
  unfold coalesceOps
  rw [List.map_map]
  rfl

theorem coalesce_txids_nodup (n : Nat) :
    (((List.range n).map fun i => TxRec.mk i 1).map TxRec.txid).Nodup := by
  have he : ((List.range n).map fun i => TxRec.mk i 1).map TxRec.txid
      = List.range n := by
    rw [List.map_map]
    exact List.map_id _
  rw [he]
  exact List.nodup_range n

theorem coalesceOps_length (n : Nat) : (coalesceOps n).length = n := by
  unfold coalesceOps
  rw [List.length_map, List.length_range]

theorem coalesce_txCount (n : Nat) (chunks : List (List TxOp))
    (hv : ValidSchedule (coalesceOps n) chunks) :
    (runChunks (asyncOpen emptyTxDB) chunks).db.txCount = n := by
  have hwf0 : Wf emptyTxDB := ⟨List.nodup_nil, rfl, rfl⟩
  have hv' : ValidSchedule (((List.range n).map fun i => TxRec.mk i 1).map
      fun t => TxOp.add t.txid t.size 0) chunks := by
    rw [← coalesceOps_eq]; exact hv
  have hwf : Wf (runChunks (asyncOpen emptyTxDB) chunks).db :=
    runChunks_wf chunks _ hwf0
  have hlook := adds_runChunks_lookup ((List.range n).map fun i => TxRec.mk i 1)
    (coalesce_txids_nodup n) chunks 0 hv'
  rw [asyncOpen_def] at hwf
  have hperm := assoc_perm_of_lookupKey_eq hwf.1
    (canonical_keys_nodup (coalesce_txids_nodup n)) hlook
  rw [asyncOpen_def, hwf.2.2, hperm.length_eq, List.length_map,
    List.length_map, List.length_range]

/-- C6 (amended): for every worker schedule, the 1223 individual adds
followed by the barrier leave the count at 1223; the write count equals
the number of drain cycles, is at most 1223, and is strictly below 1223
exactly when some drain cycle coalesced at least two queued requests. -/
theorem coalescing (chunks : List (List TxOp))
    (hs : ValidSchedule (coalesceOps 1223) chunks) :
    (runChunks (asyncOpen emptyTxDB) chunks).db.txCount = 1223 ∧
    (runChunks (asyncOpen emptyTxDB) chunks).writeCount = chunks.length ∧
    chunks.length ≤ 1223 ∧
    ((∃ c ∈ chunks, 2 ≤ c.length) →
      (runChunks (asyncOpen emptyTxDB) chunks).writeCount < 1223) := by
  have hwc : (runChunks (asyncOpen emptyTxDB) chunks).writeCount
      = chunks.length := by
    rw [runChunks_writeCount chunks _ hs.2]
    simp [asyncOpen]
  have hjlen : chunks.join.length = 1223 := by
    rw [hs.1, coalesceOps_length]
  refine ⟨coalesce_txCount 1223 chunks hs, hwc, ?_, ?_⟩
  · have := length_le_join_length chunks hs.2
    omega
  · intro hw
    have := length_lt_join_length chunks hs.2 hw
    omega

/-- C6 counterexample: the claim as stated — the write count is always
strictly below 1223 — fails on the schedule in which the worker drains
exactly one queued request per cycle: that schedule is valid and
executes exactly 1223 physical batch commits. -/
theorem coalescing_cex :
    ValidSchedule (coalesceOps 1223) ((coalesceOps 1223).map fun op => [op]) ∧
    ¬ ((runChunks (asyncOpen emptyTxDB)
        ((coalesceOps 1223).map fun op => [op])).writeCount < 1223) := by
  refine ⟨singleton_schedule_valid _, ?_⟩
  have h := runChunks_writeCount ((coalesceOps 1223).map fun op => [op])
    (asyncOpen emptyTxDB) (singleton_schedule_valid (coalesceOps 1223)).2
  rw [h]
  have hlen : ((coalesceOps 1223).map fun op => [op]).length = 1223 := by
    rw [List.length_map, coalesceOps_length]
  rw [hlen]
  simp [asyncOpen]

theorem coalescing_witness :
    (runChunks (asyncOpen emptyTxDB) [coalesceOps 1223]).db.txCount = 1223 ∧
    (runChunks (asyncOpen emptyTxDB) [coalesceOps 1223]).writeCount < 1223 := by
  have hne : coalesceOps 1223 ≠ [] := by
    intro hcontra
    have := coalesceOps_length 1223
    rw [hcontra] at this
    simp at this
  have hv : ValidSchedule (coalesceOps 1223) [coalesceOps 1223] := by
    constructor
    · simp [List.join]
    · intro hcontra
      rw [List.mem_singleton] at hcontra
      exact hne hcontra.symm
  have h := coalescing [coalesceOps 1223] hv
  refine ⟨h.1, ?_⟩
  have h2 := h.2.2.2 ⟨coalesceOps 1223, List.mem_singleton.2 rfl, ?_⟩
  · exact h2
  · rw [coalesceOps_length]
    omega
